import Mathlib

/-!
Verification of the kyrene entity/component/event runtime
(crates/kyrene-core). Rust source files are shallowly embedded as
executable Lean definitions:

* `loan.rs`    — `LoanStorage` and its checkout operations;
* `handler.rs` — `EventHandlerMeta`, the tuple `HandlerParam::meta`
  computation, and `DynEventHandlers::insert`;
* `event.rs`   — the Kahn-style batch dispatch of
  `DynEventDispatcher::fire` and its `delta_time` bookkeeping;
* `component.rs` — the `Components` store;
* `query.rs`   — query construction and iteration.

Type-erased runtime identifiers (`TypeInfo`, `Entity`) are modelled as
natural numbers; a Rust panic or `unwrap` failure is modelled as an
`Option`/`Except` failure value.
-/

namespace Kyrene

/-! ### Loan storage — `loan.rs`

`LoanStorage<T>` has variants `Vacant`, `Owned(T)`, `Loan(Arc<T>)` and
`LoanMut(Arc<Mutex<Option<T>>>)`.  The `Loan` variant's `Arc` reference
count is made explicit: `outstanding` counts the checkout tokens held
outside the slot, so Rust's `Arc::strong_count == 1` (the slot's own
reference only) corresponds to `outstanding = 0`.  The `LoanMut` cell is
`none` while the write token is out and `some v` once the token's `Drop`
has moved the value back. -/

inductive LoanStorage (T : Type) where
  | vacant
  | owned (value : T)
  | loan (value : T) (outstanding : Nat)
  | loanMut (cell : Option T)
deriving DecidableEq, Repr

/-- `LoanStorage::into_owned` (loan.rs:77-92): `Vacant` is an error;
`Owned` succeeds; `Loan` succeeds exactly when `Arc::try_unwrap`
succeeds, i.e. when no checkout token is outstanding; `LoanMut`
succeeds exactly when the cell has been refilled (`guard.take()`
returns `Some`). -/
def LoanStorage.into_owned {T : Type} : LoanStorage T → Except (LoanStorage T) T
  | .vacant => .error .vacant
  | .owned v => .ok v
  | .loan v o => if o = 0 then .ok v else .error (.loan v o)
  | .loanMut (some v) => .ok v
  | .loanMut none => .error (.loanMut none)

/-- `LoanStorage::loan_mut` (loan.rs:138-154): replace the slot by
`Vacant`, run `into_owned`; on success the slot becomes
`LoanMut(Arc::new(Mutex::new(None)))` and the value is carried out in
the returned token; on failure the previous state is restored and no
token is produced.  Returned as `(token, new slot state)`. -/
def LoanStorage.loan_mut {T : Type} (s : LoanStorage T) : Option T × LoanStorage T :=
  match s.into_owned with
  | .ok v => (some v, .loanMut none)
  | .error s' => (none, s')

/-- `LoanStorage::loan` (loan.rs:124-136) — named `loan_shared` here
because `loan` is taken by the constructor — with the `Arc` counting of
`into_loaned` (loan.rs:94-108) made explicit: from `Owned` or a
refilled `LoanMut` cell the slot becomes shared with one outstanding
token; from `Loan` the outstanding count grows by one (the returned
token is a clone of the slot's `Arc`); `Vacant` and an empty `LoanMut`
cell fail, restoring the previous state. -/
def LoanStorage.loan_shared {T : Type} : LoanStorage T → Option T × LoanStorage T
  | .vacant => (none, .vacant)
  | .owned v => (some v, .loan v 1)
  | .loan v o => (some v, .loan v (o + 1))
  | .loanMut (some v) => (some v, .loan v 1)
  | .loanMut none => (none, .loanMut none)

/-- Dropping one shared checkout token (a `Loan<T>` clone): the `Arc`
reference count decreases by one; the slot value is otherwise
untouched. -/
def LoanStorage.dropLoan {T : Type} : LoanStorage T → LoanStorage T
  | .loan v (o + 1) => .loan v o
  | s => s

/-- `LoanMut::drop` (loan.rs:49-57): the value carried by the write
token is moved back into the shared `outer` cell.  The source performs
the store in a spawned task; the embedding records the completed
effect. -/
def LoanStorage.dropLoanMut {T : Type} (s : LoanStorage T) (returned : T) : LoanStorage T :=
  match s with
  | .loanMut _ => .loanMut (some returned)
  | s => s

/-- The four abstract slot states of the specification. -/
inductive AbsLoanState where
  | vacant
  | owned
  | shared
  | exclusive
deriving DecidableEq, Repr

/-- Abstraction map from the concrete `LoanStorage` representation to
the specification's four states.  Following the spec's definitions,
*shared* means "one or more read checkouts outstanding" and *owned*
means "value present, uncontended": a `Loan` cell whose last token has
been dropped (outstanding = 0) and a `LoanMut` cell that has been
refilled are both abstractly *owned*. -/
def LoanStorage.abs {T : Type} : LoanStorage T → AbsLoanState
  | .vacant => .vacant
  | .owned _ => .owned
  | .loan _ o => if o = 0 then .owned else .shared
  | .loanMut c => if c.isSome then .owned else .exclusive

/-- The value currently present in (or reachable from) the slot. -/
def LoanStorage.storedValue {T : Type} : LoanStorage T → Option T
  | .vacant => none
  | .owned v => some v
  | .loan v _ => some v
  | .loanMut c => c

/-! ### Handler metadata — `handler.rs`

`TypeInfo` values (stable per-type identifiers) are modelled as natural
numbers, `TypeIdSet` as `Finset Nat`. -/

/-- `EventHandlerMeta` (handler.rs:21-25): declared sets of resource
types read and written. -/
structure EventHandlerMeta where
  resources_read : Finset Nat
  resources_written : Finset Nat
deriving DecidableEq

/-- `EventHandlerMeta::default()`: both sets empty. -/
def EventHandlerMeta.empty : EventHandlerMeta := ⟨∅, ∅⟩

/-- `EventHandlerMeta::is_compatible` (handler.rs:45-64): counts the
elements of `read ∩ other.written`, `written ∩ other.read` and
`written ∩ other.written`; compatible iff the total is zero. -/
def EventHandlerMeta.is_compatible (a b : EventHandlerMeta) : Bool :=
  ((a.resources_read ∩ b.resources_written).card
      + (a.resources_written ∩ b.resources_read).card
      + (a.resources_written ∩ b.resources_written).card) == 0

/-- `impl Add for EventHandlerMeta` (handler.rs:75-84): unions both
sets. -/
def EventHandlerMeta.add (a b : EventHandlerMeta) : EventHandlerMeta :=
  ⟨a.resources_read ∪ b.resources_read,
   a.resources_written ∪ b.resources_written⟩

/-- The accumulation loop of the tuple `HandlerParam::meta`
(handler.rs:307-315), starting from an arbitrary accumulator: for each
member metadata in order, `assert!(meta.is_compatible(&meta2))` — a
failed assertion (registration-time panic) is the `none` result — then
`meta = meta + meta2`. -/
def tupleMetaStep (acc : Option EventHandlerMeta) (m : EventHandlerMeta) :
    Option EventHandlerMeta :=
  match acc with
  | none => none
  | some x => if x.is_compatible m then some (x.add m) else none

/-- The tuple `meta()` fold over the member list, starting from an
arbitrary accumulator. -/
def tupleMetaFold (a : EventHandlerMeta) (ms : List EventHandlerMeta) :
    Option EventHandlerMeta :=
  ms.foldl tupleMetaStep (some a)

/-- `<($($param,)*) as HandlerParam>::meta()` for a tuple of member
metadata records (handler.rs:307-315): fold from
`EventHandlerMeta::default()`. -/
def tupleMeta (ms : List EventHandlerMeta) : Option EventHandlerMeta :=
  tupleMetaFold EventHandlerMeta.empty ms

/-- The claim's notion of a conflicting pair of parameter kinds: one's
declared write-set intersects the other's read-set or write-set. -/
def conflict (a b : EventHandlerMeta) : Prop :=
  (a.resources_written ∩ b.resources_read).Nonempty
    ∨ (a.resources_written ∩ b.resources_written).Nonempty
    ∨ (b.resources_written ∩ a.resources_read).Nonempty

instance (a b : EventHandlerMeta) : Decidable (conflict a b) := by
  unfold conflict; infer_instance

/-! ### Handler registration — `DynEventHandlers::insert` (handler.rs)

A `StableDiGraph` to which nodes are only ever added is modelled by its
node count (indices `0..nodes-1`) and its edge list (parallel edges
kept, as `add_edge` allows them).  The `index_cache` hash map from
handler `TypeInfo` to node index is an association list whose most
recent binding wins. -/

/-- `HandlerAddOption` (handler.rs:555-559). -/
inductive HandlerAddOption where
  | after (t : Nat)
  | before (t : Nat)
deriving DecidableEq, Repr

/-- The registration-relevant fields of `HandlerConfig`
(handler.rs:561-567): the handler's own type id and its collected
`after`/`before` options. -/
structure HandlerConfig where
  handler_type_id : Nat
  options : List HandlerAddOption
deriving DecidableEq, Repr

/-- The graph state of `DynEventHandlers` (handler.rs:504-509). -/
structure DynEventHandlers where
  nodes : Nat
  edges : List (Nat × Nat)
  index_cache : List (Nat × Nat)
deriving DecidableEq, Repr

/-- A freshly created `DynEventHandlers::new` graph. -/
def emptyHandlers : DynEventHandlers := ⟨0, [], []⟩

/-- The handler type id an option refers to. -/
def optionTarget : HandlerAddOption → Nat
  | .after t => t
  | .before t => t

/-- One iteration of the options loop in `insert` (handler.rs:536-549):
look the referenced handler up in the index cache — the `unwrap` on a
missing entry is a panic, modelled as `none` — and append the edge
(`After(first)` adds `first → index`, `Before(second)` adds
`index → second`). -/
def addOptionEdge (index : Nat) (cache : List (Nat × Nat)) (es : List (Nat × Nat)) :
    HandlerAddOption → Option (List (Nat × Nat))
  | .after t => (cache.lookup t).map (fun first => es ++ [(first, index)])
  | .before t => (cache.lookup t).map (fun second => es ++ [(index, second)])

/-- The options loop of `insert`, folded over the whole option list. -/
def insertEdgesFold (index : Nat) (cache : List (Nat × Nat)) (es : List (Nat × Nat))
    (opts : List HandlerAddOption) : Option (List (Nat × Nat)) :=
  opts.foldl (fun acc opt => acc.bind (fun es2 => addOptionEdge index cache es2 opt)) (some es)

/-- `DynEventHandlers::insert` (handler.rs:520-552): add the node, put
its type id into the index cache (before the options are processed),
then add one edge per `after`/`before` option.  Returns the new graph
and the new node's index, or `none` if an option referenced an
unregistered handler (the `unwrap` panic).  No cycle check of any kind
is performed. -/
def DynEventHandlers.insert (s : DynEventHandlers) (c : HandlerConfig) :
    Option (DynEventHandlers × Nat) :=
  let index := s.nodes
  let cache := (c.handler_type_id, index) :: s.index_cache
  (insertEdgesFold index cache s.edges c.options).map
    (fun es => ({ nodes := s.nodes + 1, edges := es, index_cache := cache }, index))

/-! ### Batch dispatch — `DynEventDispatcher::fire` (event.rs:156-240)

The Kahn sweep: in-degrees are computed for every node, the zero
in-degree nodes form the initial queue (in node-index order), and each
iteration of the while loop takes the current queue contents as one
batch, decrements the in-degree of every out-neighbor of a batch node,
and enqueues neighbors whose in-degree reaches zero for the next batch.
The recursion is fuelled; `n` units of fuel suffice for a graph with
`n` nodes. -/

/-- `handlers.neighbors_directed(node, Outgoing)`: one entry per edge
leaving `v`. -/
def outNeighbors (edges : List (Nat × Nat)) (v : Nat) : List Nat :=
  (edges.filter (fun e => e.1 == v)).map Prod.snd

/-- `handlers.neighbors_directed(node, Incoming).count()`: one per edge
entering `v`. -/
def inDegree (edges : List (Nat × Nat)) (v : Nat) : Nat :=
  (edges.filter (fun e => e.2 == v)).length

/-- The body of the inner neighbor loop (event.rs:195-202): decrement
the neighbor's in-degree and enqueue it if the count reached zero. -/
def kahnDecrement (st : (Nat → Nat) × List Nat) (w : Nat) : (Nat → Nat) × List Nat :=
  let d := st.1 w - 1
  (fun x => if x = w then d else st.1 x, if d = 0 then st.2 ++ [w] else st.2)

/-- The batch-processing loop (event.rs:191-203): pop each node of the
current batch and run the neighbor loop for it.  The state is the
in-degree map together with the queue of nodes enqueued for the next
batch. -/
def kahnProcessBatch (edges : List (Nat × Nat)) (st : (Nat → Nat) × List Nat)
    (q : List Nat) : (Nat → Nat) × List Nat :=
  q.foldl (fun st2 v => (outNeighbors edges v).foldl kahnDecrement st2) st

/-- The `while !queue.is_empty()` loop (event.rs:188-237), recorded as
the list of batches in spawn order. -/
def kahnLoop (edges : List (Nat × Nat)) : Nat → (Nat → Nat) → List Nat → List (List Nat)
  | 0, _, _ => []
  | fuel + 1, indeg, q =>
    if q.isEmpty then []
    else
      let st := kahnProcessBatch edges (indeg, []) q
      q :: kahnLoop edges fuel st.1 st.2

/-- The batches spawned by one `fire` of an event whose handler graph
has nodes `0..n-1` and the given edges (event.rs:174-237). -/
def kahnBatches (n : Nat) (edges : List (Nat × Nat)) : List (List Nat) :=
  kahnLoop edges n (fun v => inDegree edges v)
    ((List.range n).filter (fun v => inDegree edges v == 0))

/-- The number of edges into `v` from nodes outside the processed set
`P` (with multiplicity): the value Kahn's in-degree counter holds for a
not-yet-processed node. -/
def edgeCountFrom (edges : List (Nat × Nat)) (P : Finset Nat) (v : Nat) : Nat :=
  edges.countP (fun e => e.2 == v && !(decide (e.1 ∈ P)))

/-- A node is ready once the processed set is `P`: it exists, is not
yet processed, and all its predecessors are processed.  The frontier
queue of the sweep holds exactly the ready nodes. -/
def kahnReady (n : Nat) (edges : List (Nat × Nat)) (P : Finset Nat) (v : Nat) : Prop :=
  v < n ∧ v ∉ P ∧ ∀ u, (u, v) ∈ edges → u ∈ P

/-- The loop invariant of the Kahn sweep, relating the processed set
`P` to the in-degree map and the frontier queue. -/
structure KahnInv (n : Nat) (edges : List (Nat × Nat)) (P : Finset Nat)
    (indeg : Nat → Nat) (q : List Nat) : Prop where
  hP : ∀ v ∈ P, v < n
  hclosed : ∀ v ∈ P, ∀ u, (u, v) ∈ edges → u ∈ P
  hq_nodup : q.Nodup
  hq_mem : ∀ v, v ∈ q ↔ kahnReady n edges P v
  hindeg : ∀ v ∉ P, indeg v = edgeCountFrom edges P v

/-- The `delta_time` bookkeeping of `fire` (event.rs:205-216), with
wall-clock instants abstracted to a clock yielding one `Nat` sample per
iteration of the while loop: at each of the `numBatches` iterations the
delta is computed from `last_fired` and `last_fired` is replaced by the
current sample.  Returns the per-batch delta values (the value each
batch's handlers observe in their `Event`) and the final `last_fired`
state. -/
def fireDeltas (numBatches : Nat) (lastFired : Option Nat) (clock : Nat → Nat) :
    List (Option Nat) × Option Nat :=
  (List.range numBatches).foldl
    (fun st k => (st.1 ++ [st.2.map (fun t => clock k - t)], some (clock k)))
    ([], lastFired)

/-! ### Handler parameters and the resource-precondition check

Handler parameter kinds as declared in handler.rs, with the resource
store abstracted to the set of resource type ids present.  The
dispatch-time decision whether a handler actually runs combines two
gates: `handler.meta.can_run(&world)` in `fire` (event.rs:218-229) —
where `handler.meta` is the record produced at registration
(handler.rs:578) by the `EventHandler::meta` trait default
(handler.rs:87-89), which `FunctionEventHandler` does not override —
and `<F::Param>::can_run` inside `run_dyn` (handler.rs:394-408), which
for tuples conjoins the member checks (handler.rs:326-331). -/

/-- Parameter kinds: `Res<T>`, `ResMut<T>`, `Option<Res<T>>`,
`Option<ResMut<T>>`, `Local<T>`, `WorldHandle`. -/
inductive ParamKind where
  | res (t : Nat)
  | resMut (t : Nat)
  | optRes (t : Nat)
  | optResMut (t : Nat)
  | localParam
  | worldHandleParam
deriving DecidableEq, Repr

/-- `HandlerParam::meta` per kind (handler.rs:172-174, 191-193,
227-229, 246-248, 283-285; world_handle.rs:131-133): `Res`-like kinds
declare a read, `ResMut`-like kinds declare a write — the `Option`
wrappers declare the same sets as their non-optional versions. -/
def paramMeta : ParamKind → EventHandlerMeta
  | .res t => ⟨{t}, ∅⟩
  | .resMut t => ⟨∅, {t}⟩
  | .optRes t => ⟨{t}, ∅⟩
  | .optResMut t => ⟨∅, {t}⟩
  | .localParam => EventHandlerMeta.empty
  | .worldHandleParam => EventHandlerMeta.empty

/-- `HandlerParam::can_run` per kind (handler.rs:182-184, 201-203,
237-239, 256-258, 295-297; world_handle.rs:141-143): only the
non-optional `Res`/`ResMut` kinds require their resource to be present;
the `Option` wrappers, `Local` and `WorldHandle` always permit the
run. -/
def paramCanRun (w : Finset Nat) : ParamKind → Bool
  | .res t => decide (t ∈ w)
  | .resMut t => decide (t ∈ w)
  | .optRes _ => true
  | .optResMut _ => true
  | .localParam => true
  | .worldHandleParam => true

/-- The resource type a kind strictly requires to be present for its
`can_run` to pass, if any. -/
def strictlyRequires : ParamKind → Option Nat
  | .res t => some t
  | .resMut t => some t
  | _ => none

/-- The combined declared metadata of a parameter list, folded with
`+` as in the tuple `meta()` (ignoring the compatibility assertion). -/
def declaredMeta (ps : List ParamKind) : EventHandlerMeta :=
  ps.foldl (fun a p => a.add (paramMeta p)) EventHandlerMeta.empty

/-- The metadata record stored for a registered handler
(handler.rs:578): `FunctionEventHandler` does not override the
`EventHandler::meta` trait default (handler.rs:87-89, 375-409), so
this is `EventHandlerMeta::default()`. -/
def functionEventHandlerMeta : EventHandlerMeta := EventHandlerMeta.empty

/-- `EventHandlerMeta::can_run` (handler.rs:66-72): every required
resource (read set chained with written set, handler.rs:38-43) must be
present in the resource store. -/
def metaCanRun (m : EventHandlerMeta) (w : Finset Nat) : Bool :=
  decide ((m.resources_read ∪ m.resources_written : Finset Nat) ⊆ w)

/-- Whether one firing invokes a handler with the given parameter list:
the `fire`-level gate on the stored (empty) metadata, then the
`run_dyn`-level gate on the parameter tuple's `can_run`
(event.rs:218-229; handler.rs:398-405, 326-331). -/
def handlerInvoked (ps : List ParamKind) (w : Finset Nat) : Bool :=
  metaCanRun functionEventHandlerMeta w && ps.all (paramCanRun w)

/-! ### Component store — `Components` (component.rs)

`Entity` identifiers and type-erased component values are natural
numbers.  The two hash maps (`entity_map : Entity → TypeIdMap<...>`,
`component_map : TypeId → EntitySet`) are association lists with unique
keys; `EntitySet` is a duplicate-free list. -/

abbrev Entity := Nat

abbrev Val := Nat

/-- Association-list lookup (hash-map `get`). -/
def alGet {β : Type} : List (Nat × β) → Nat → Option β
  | [], _ => none
  | (k', v') :: rest, k => if k' = k then some v' else alGet rest k

/-- Association-list insert (hash-map `insert`): replaces the binding
in place if the key is present, otherwise appends. -/
def alInsert {β : Type} : List (Nat × β) → Nat → β → List (Nat × β)
  | [], k, v => [(k, v)]
  | (k', v') :: rest, k, v =>
    if k' = k then (k, v) :: rest else (k', v') :: alInsert rest k v

/-- Association-list removal (hash-map `remove`). -/
def alRemove {β : Type} : List (Nat × β) → Nat → List (Nat × β)
  | [], _ => []
  | (k', v') :: rest, k => if k' = k then rest else (k', v') :: alRemove rest k

/-- `EntitySet::insert`. -/
def esInsert (s : List Entity) (e : Entity) : List Entity :=
  if e ∈ s then s else s ++ [e]

/-- `EntitySet::remove`. -/
def esRemove (s : List Entity) (e : Entity) : List Entity :=
  s.filter (fun x => x != e)

/-- `Components` (component.rs:128-132). -/
structure Components where
  entity_map : List (Entity × List (Nat × Val))
  component_map : List (Nat × List Entity)
deriving DecidableEq, Repr

/-- An empty store (`Components::default()`). -/
def Components.emptyStore : Components := ⟨[], []⟩

/-- `Components::insert` (component.rs:135-152): record the entity in
the reverse index for the component type, then insert the new storage
into the entity's type map, returning the previous value if any. -/
def Components.insert (c : Components) (e : Entity) (t : Nat) (v : Val) :
    Option Val × Components :=
  let cm := alInsert c.component_map t (esInsert ((alGet c.component_map t).getD []) e)
  let tm := (alGet c.entity_map e).getD []
  let old := alGet tm t
  (old, ⟨alInsert c.entity_map e (alInsert tm t v), cm⟩)

/-- `Components::remove` (component.rs:188-204): early-return `none` if
the entity has no type map or no entry for the type (the `?`s, before
the reverse index is touched); otherwise delete the entry, remove the
entity from the reverse index and return the value.  The source
`unwrap`s the reverse-index entry for the type; a missing entry (which
cannot arise from `insert`/`remove` sequences, where both maps are kept
in step) leaves the index unchanged here — the `entity_map`, through
which all reads go, is unaffected either way. -/
def Components.remove (c : Components) (e : Entity) (t : Nat) :
    Option Val × Components :=
  match alGet c.entity_map e with
  | none => (none, c)
  | some tm =>
    match alGet tm t with
    | none => (none, c)
    | some v =>
      let em := alInsert c.entity_map e (alRemove tm t)
      let cm :=
        match alGet c.component_map t with
        | some s => alInsert c.component_map t (esRemove s e)
        | none => c.component_map
      (some v, ⟨em, cm⟩)

/-- `Components::get` (component.rs:206-215): the value reachable for
`(entity, type)` — the checkout hands back the slot contents. -/
def Components.get (c : Components) (e : Entity) (t : Nat) : Option Val :=
  (alGet c.entity_map e).bind (fun tm => alGet tm t)

/-- `Components::has` (component.rs:228-234): synchronous key lookup
into the entity's type map. -/
def Components.has (c : Components) (e : Entity) (t : Nat) : Bool :=
  match alGet c.entity_map e with
  | some tm => (alGet tm t).isSome
  | none => false

/-- `Components::entities_with` (component.rs:236-242). -/
def Components.entities_with (c : Components) (t : Nat) : List Entity :=
  (alGet c.component_map t).getD []

/-- `Components::entity_iter` (component.rs:244-246). -/
def Components.entity_iter (c : Components) : List Entity :=
  c.entity_map.map Prod.fst

/-- Store operations that may happen between an insert and a get. -/
inductive WorldOp where
  | ins (e : Entity) (t : Nat) (v : Val)
  | rem (e : Entity) (t : Nat)
deriving DecidableEq, Repr

/-- Apply one operation to the store. -/
def applyOp (c : Components) : WorldOp → Components
  | .ins e t v => (c.insert e t v).2
  | .rem e t => (c.remove e t).2

/-- Apply a sequence of operations in order. -/
def applyOps (c : Components) (ops : List WorldOp) : Components :=
  ops.foldl applyOp c

/-- Whether an operation addresses the slot `(e, t)`. -/
def touches : WorldOp → Entity → Nat → Prop
  | .ins e' t' _, e, t => e' = e ∧ t' = t
  | .rem e' t', e, t => e' = e ∧ t' = t

/-! ### Query engine — `query.rs` -/

/-- Queryable kinds: `Entity`, `&T` (read) and `&mut T` (write). -/
inductive QKind where
  | ent
  | read (t : Nat)
  | write (t : Nat)
deriving DecidableEq, Repr

/-- `Queryable::filter_state` per kind (query.rs:42, 63-70, 99-104):
`Entity` keeps everything; `&T` drops entities for which `has` fails;
`&mut T` retains exactly the entities in the current
`entities_with::<T>` index. -/
def filterStep (c : Components) (matching : List Entity) : QKind → List Entity
  | .ent => matching
  | .read t => matching.filter (fun e => Components.has c e t)
  | .write t => matching.filter (fun e => decide (e ∈ Components.entities_with c t))

/-- `Query::new` (query.rs:209-221): start from `all_entities()`
(world_handle.rs:34-36, collecting `entity_iter`) and apply each kind's
filter in order.  The result is the query's eagerly computed snapshot
`entities_matching`. -/
def queryMatching (c : Components) (q : List QKind) : List Entity :=
  q.foldl (filterStep c) (Components.entity_iter c)

/-- Component-kind `Queryable::iter` (query.rs:84-94 for `&T`,
118-128 for `&mut T`): one checkout per snapshot entity, each result
`unwrap`ped — a failed checkout is a panic of the whole iteration,
modelled as `none`. -/
def queryIterItems (c : Components) (matching : List Entity) (t : Nat) :
    Option (List Val) :=
  match matching with
  | [] => some []
  | e :: rest =>
    match Components.get c e t with
    | none => none
    | some v => (queryIterItems c rest t).map (fun items => v :: items)

instance (op : WorldOp) (e : Entity) (t : Nat) : Decidable (touches op e t) := by
  cases op <;> simp only [touches] <;> infer_instance

end Kyrene

namespace Kyrene

/-- C3: for every loan slot, an exclusive checkout (`loan_mut`)
succeeds exactly from the abstractly *owned* state, moving the slot to
*exclusive* with the value carried out of the slot; from *vacant*,
*shared* (outstanding read checkouts) or *exclusive* (outstanding
write checkout) it fails and leaves the slot unchanged. -/
theorem loan_mut_exclusive_from_owned {T : Type} (s : LoanStorage T) :
    ((s.loan_mut.1.isSome ↔ s.abs = .owned)
      ∧ (s.abs = .owned → s.loan_mut = (s.storedValue, .loanMut none))
      ∧ (s.abs = .owned → (s.loan_mut.2).abs = .exclusive)
      ∧ (s.abs ≠ .owned → s.loan_mut = (none, s))) := by
  rcases s with _ | v | ⟨v, o⟩ | c
  · simp [LoanStorage.loan_mut, LoanStorage.into_owned, LoanStorage.abs]
  · simp [LoanStorage.loan_mut, LoanStorage.into_owned, LoanStorage.abs,
      LoanStorage.storedValue]
  · rcases o with _ | o <;>
      simp [LoanStorage.loan_mut, LoanStorage.into_owned, LoanStorage.abs,
        LoanStorage.storedValue]
  · rcases c with _ | v <;>
      simp [LoanStorage.loan_mut, LoanStorage.into_owned, LoanStorage.abs,
        LoanStorage.storedValue]

/-- Witness for C3 at the concrete slot `Owned 7` (and, for the failure
branch, at a shared slot with one outstanding token). -/
theorem loan_mut_exclusive_from_owned_witness :
    (LoanStorage.owned 7).loan_mut = (some 7, .loanMut none)
      ∧ (LoanStorage.loan 7 1).loan_mut = (none, .loan 7 1) := by
  constructor
  · exact (loan_mut_exclusive_from_owned (LoanStorage.owned 7)).2.1 (by decide)
  · exact (loan_mut_exclusive_from_owned (LoanStorage.loan 7 1)).2.2.2 (by decide)

/-- C4: dropping the last outstanding checkout returns the slot to the
abstractly *owned* state, and an immediately subsequent exclusive
checkout succeeds and carries the value out.  Stated for both the
shared case (last `Loan` token dropped) and the exclusive case (the
`LoanMut` token dropped, refilling the cell); dropping a shared token
with further tokens outstanding keeps the slot *shared*. -/
theorem drop_last_checkout_restores_owned {T : Type} (v x : T) (o : Nat) :
    (((LoanStorage.loan v 1).dropLoan).abs = .owned
        ∧ ((LoanStorage.loan v 1).dropLoan).loan_mut = (some v, .loanMut none))
      ∧ (((LoanStorage.loanMut none).dropLoanMut x).abs = .owned
        ∧ ((LoanStorage.loanMut none).dropLoanMut x).loan_mut = (some x, .loanMut none))
      ∧ (((LoanStorage.loan v (o + 2)).dropLoan).abs = .shared) := by
  refine ⟨⟨?_, ?_⟩, ⟨?_, ?_⟩, ?_⟩ <;>
    simp [LoanStorage.dropLoan, LoanStorage.dropLoanMut, LoanStorage.abs,
      LoanStorage.loan_mut, LoanStorage.into_owned]

/-- `is_compatible` expressed through emptiness of the three
intersections. -/
theorem is_compatible_iff (a b : EventHandlerMeta) :
    a.is_compatible b = true
      ↔ (a.resources_read ∩ b.resources_written = ∅
          ∧ a.resources_written ∩ b.resources_read = ∅
          ∧ a.resources_written ∩ b.resources_written = ∅) := by
  simp [EventHandlerMeta.is_compatible, Nat.add_eq_zero, Finset.card_eq_zero, and_assoc]

/-- Incompatibility coincides with the claim's pairwise conflict. -/
theorem not_compatible_iff_conflict (a b : EventHandlerMeta) :
    a.is_compatible b = false ↔ conflict a b := by
  rw [Bool.eq_false_iff, Ne, is_compatible_iff]
  unfold conflict
  rw [not_and_or, not_and_or]
  simp only [← Finset.nonempty_iff_ne_empty]
  rw [Finset.inter_comm a.resources_read b.resources_written]
  tauto

/-- The empty metadata record is compatible with every record. -/
theorem empty_is_compatible (m : EventHandlerMeta) :
    EventHandlerMeta.empty.is_compatible m = true := by
  simp [EventHandlerMeta.empty, EventHandlerMeta.is_compatible]

/-- Compatibility with the union of two records splits. -/
theorem add_is_compatible_iff (a b c : EventHandlerMeta) :
    (a.add b).is_compatible c = true
      ↔ (a.is_compatible c = true ∧ b.is_compatible c = true) := by
  simp only [is_compatible_iff, EventHandlerMeta.add,
    Finset.union_inter_distrib_right, Finset.union_eq_empty]
  tauto

/-- Folding from `none` is absorbing (once the assertion has fired the
whole computation is a panic). -/
theorem tupleMetaFold_none_absorb (ms : List EventHandlerMeta) :
    ms.foldl tupleMetaStep (none : Option EventHandlerMeta) = none := by
  induction ms with
  | nil => rfl
  | cons m ms ih => simpa [tupleMetaStep] using ih

/-- Unfolding the fold by one member. -/
theorem tupleMetaFold_cons (a m : EventHandlerMeta) (ms : List EventHandlerMeta) :
    tupleMetaFold a (m :: ms)
      = if a.is_compatible m = true then tupleMetaFold (a.add m) ms else none := by
  by_cases h : a.is_compatible m = true
  · simp [tupleMetaFold, tupleMetaStep, h]
  · simp only [tupleMetaFold, List.foldl_cons, tupleMetaStep, if_neg h]
    exact tupleMetaFold_none_absorb ms

/-- The fold panics exactly when the accumulator conflicts with some
member or two members conflict pairwise. -/
theorem tupleMetaFold_eq_none_iff (ms : List EventHandlerMeta) (a : EventHandlerMeta) :
    tupleMetaFold a ms = none
      ↔ ¬ ((∀ x ∈ ms, a.is_compatible x = true)
            ∧ List.Pairwise (fun x y => x.is_compatible y = true) ms) := by
  induction ms generalizing a with
  | nil => simp [tupleMetaFold]
  | cons m ms ih =>
    by_cases h : a.is_compatible m = true
    · rw [tupleMetaFold_cons, if_pos h, ih]
      apply not_congr
      rw [List.pairwise_cons, List.forall_mem_cons]
      constructor
      · rintro ⟨h2, h3⟩
        exact ⟨⟨h, fun x hx => ((add_is_compatible_iff a m x).mp (h2 x hx)).1⟩,
          fun x hx => ((add_is_compatible_iff a m x).mp (h2 x hx)).2, h3⟩
      · rintro ⟨⟨_, h2⟩, h3, h4⟩
        exact ⟨fun x hx => (add_is_compatible_iff a m x).mpr ⟨h2 x hx, h3 x hx⟩, h4⟩
    · rw [tupleMetaFold_cons, if_neg h]
      constructor
      · rintro - ⟨h2, _⟩
        exact h (h2 m (by simp))
      · intro _
        rfl

/-- C6: computing the metadata of a composite (tuple) handler-parameter
list panics if and only if some pair of member kinds conflicts, where
two kinds conflict exactly when one's declared write-set intersects the
other's declared read-set or write-set. -/
theorem tuple_meta_panics_iff_pair_conflict (ms : List EventHandlerMeta) :
    tupleMeta ms = none
      ↔ ∃ i j : Fin ms.length, i < j ∧ conflict (ms.get i) (ms.get j) := by
  rw [tupleMeta, tupleMetaFold_eq_none_iff]
  have hall : ∀ x ∈ ms, EventHandlerMeta.empty.is_compatible x = true :=
    fun x _ => empty_is_compatible x
  rw [List.pairwise_iff_get]
  simp only [empty_is_compatible, eq_self_iff_true, implies_true, true_and]
  constructor
  · intro hn
    push_neg at hn
    obtain ⟨i, j, hij, hc⟩ := hn
    refine ⟨i, j, hij, (not_compatible_iff_conflict _ _).mp ?_⟩
    cases h : (ms.get i).is_compatible (ms.get j)
    · rfl
    · exact absurd h hc
  · rintro ⟨i, j, hij, hc⟩ hp
    have h2 := hp i j hij
    rw [(not_compatible_iff_conflict _ _).mpr hc] at h2
    exact Bool.false_ne_true h2

/-- Witness for C6: a two-member tuple whose members both write
resource type 0 panics, via the theorem applied at that concrete
list. -/
theorem tuple_meta_panics_iff_pair_conflict_witness :
    tupleMeta [⟨∅, {0}⟩, ⟨∅, {0}⟩] = none :=
  (tuple_meta_panics_iff_pair_conflict [⟨∅, {0}⟩, ⟨∅, {0}⟩]).mpr
    ⟨⟨0, by decide⟩, ⟨1, by decide⟩, by decide, by decide⟩

/-- Witness for C4 at concrete values. -/
theorem drop_last_checkout_restores_owned_witness :
    ((LoanStorage.loan 3 1).dropLoan).loan_mut = (some 3, LoanStorage.loanMut none)
      ∧ ((LoanStorage.loanMut none).dropLoanMut 4).loan_mut
          = (some 4, LoanStorage.loanMut none) :=
  ⟨(drop_last_checkout_restores_owned 3 4 0).1.2,
   (drop_last_checkout_restores_owned 3 4 0).2.1.2⟩

/-- Counterexample for C1: registering handler 0 with no ordering
options and then handler 1 with options `after 0` and `before 0` —
which adds a two-edge cycle `0 → 1 → 0` — SUCCEEDS at the second
registration instead of failing; moreover Kahn's sweep over the
resulting graph produces no batches at all, so the cycle handlers are
silently never dispatched. -/
theorem insert_cycle_accepted :
    ((emptyHandlers.insert ⟨0, []⟩).bind
        (fun p => p.1.insert ⟨1, [.after 0, .before 0]⟩)
      = some (⟨2, [(0, 1), (1, 0)], [(1, 1), (0, 0)]⟩, 1))
      ∧ kahnBatches 2 [(0, 1), (1, 0)] = [] := by decide

/-- Folding the options loop from a panicked accumulator stays
panicked. -/
theorem insertEdgesFold_none_absorb (index : Nat) (cache : List (Nat × Nat))
    (opts : List HandlerAddOption) :
    opts.foldl (fun acc opt => acc.bind (fun es2 => addOptionEdge index cache es2 opt))
      (none : Option (List (Nat × Nat))) = none := by
  induction opts with
  | nil => rfl
  | cons o opts ih => simpa using ih

/-- The options loop succeeds exactly when every referenced handler is
in the index cache. -/
theorem insertEdgesFold_isSome (index : Nat) (cache : List (Nat × Nat))
    (opts : List HandlerAddOption) (es : List (Nat × Nat)) :
    (insertEdgesFold index cache es opts).isSome = true
      ↔ ∀ opt ∈ opts, (cache.lookup (optionTarget opt)).isSome = true := by
  induction opts generalizing es with
  | nil => simp [insertEdgesFold]
  | cons o opts ih =>
    cases hl : cache.lookup (optionTarget o) with
    | none =>
      have hnone : addOptionEdge index cache es o = none := by
        cases o <;> simp only [addOptionEdge, optionTarget] at hl ⊢ <;> rw [hl] <;> rfl
      simp only [insertEdgesFold, List.foldl_cons, Option.some_bind, hnone,
        insertEdgesFold_none_absorb]
      simp only [Option.isSome_none, Bool.false_eq_true, false_iff]
      intro hall
      have h2 := hall o (by simp)
      rw [hl] at h2
      simp at h2
    | some first =>
      have hsome : ∃ es', addOptionEdge index cache es o = some es' := by
        cases o <;> simp only [addOptionEdge, optionTarget] at hl ⊢ <;> rw [hl] <;>
          exact ⟨_, rfl⟩
      obtain ⟨es', hes'⟩ := hsome
      simp only [insertEdgesFold, List.foldl_cons, Option.some_bind, hes']
      rw [show (opts.foldl
          (fun acc opt => acc.bind (fun es2 => addOptionEdge index cache es2 opt))
          (some es')) = insertEdgesFold index cache es' opts from rfl, ih]
      constructor
      · intro hall opt hopt
        rcases List.mem_cons.mp hopt with rfl | h2
        · rw [hl]; rfl
        · exact hall opt h2
      · intro hall opt hopt
        exact hall opt (by simp [hopt])

/-- C1 amended: `insert` performs no cycle detection — a registration
succeeds exactly when every handler referenced by an `after`/`before`
option is present in the index cache (into which the handler itself is
put before its options are processed); success is independent of
whether the added edges create a cycle, and a cycle's handlers are
silently skipped at dispatch (see `insert_cycle_accepted`). -/
theorem insert_succeeds_iff_targets_known (s : DynEventHandlers) (c : HandlerConfig) :
    (s.insert c).isSome = true
      ↔ ∀ opt ∈ c.options,
          ((((c.handler_type_id, s.nodes) :: s.index_cache).lookup
              (optionTarget opt)).isSome) = true := by
  have h1 : (s.insert c).isSome
      = (insertEdgesFold s.nodes ((c.handler_type_id, s.nodes) :: s.index_cache)
          s.edges c.options).isSome := by
    rcases h : insertEdgesFold s.nodes ((c.handler_type_id, s.nodes) :: s.index_cache)
        s.edges c.options with _ | es <;>
      simp [DynEventHandlers.insert, h]
  rw [h1]
  exact insertEdgesFold_isSome s.nodes _ c.options s.edges

/-- Witness for the amended C1: a handler whose `after` option refers
to its own type id (already cached at that point) registers
successfully. -/
theorem insert_succeeds_iff_targets_known_witness :
    (emptyHandlers.insert ⟨5, [HandlerAddOption.after 5]⟩).isSome = true :=
  (insert_succeeds_iff_targets_known emptyHandlers ⟨5, [HandlerAddOption.after 5]⟩).mpr
    (by decide)

/-- C5 (code bug): `fire` recomputes `delta_time` and replaces
`last_fired` at every iteration of the batch loop rather than once per
firing.  Evaluated at a firing with two batches, previous firing
recorded at time 0 and batch spawns at times 5 and 9: the first batch's
handlers observe delta 5 and the second batch's observe delta 4
(the time since the *previous batch*, not since the previous firing),
so two handlers of one firing observe different deltas; and a firing
that spawns no batches leaves `last_fired` untouched. -/
theorem delta_time_per_batch_not_per_firing :
    fireDeltas 2 (some 0) (fun k => 5 + 4 * k) = ([some 5, some 4], some 9)
      ∧ some (5 : Nat) ≠ some (4 : Nat)
      ∧ fireDeltas 0 (some 0) (fun k => 5 + 4 * k) = ([], some 0) := by decide

/-- Counterexample for C7: a handler with parameter list
`(Option<Res<T0>>,)` declares resource type 0 in its read set, yet with
an empty resource store the handler is invoked rather than skipped
(the optional parameter binds `None`). -/
theorem optional_res_declared_but_not_skipped :
    handlerInvoked [ParamKind.optRes 0] ∅ = true
      ∧ 0 ∈ (declaredMeta [ParamKind.optRes 0]).resources_read
      ∧ (0 : Nat) ∉ (∅ : Finset Nat) := by decide

/-- The accumulator's sets survive the `declaredMeta` fold. -/
theorem declaredMetaFold_subset (ps : List ParamKind) (a : EventHandlerMeta) :
    a.resources_read
        ⊆ (ps.foldl (fun x p => x.add (paramMeta p)) a).resources_read
      ∧ a.resources_written
        ⊆ (ps.foldl (fun x p => x.add (paramMeta p)) a).resources_written := by
  induction ps generalizing a with
  | nil => exact ⟨Finset.Subset.refl _, Finset.Subset.refl _⟩
  | cons p ps ih =>
    simp only [List.foldl_cons]
    refine ⟨subset_trans ?_ (ih (a.add (paramMeta p))).1,
      subset_trans ?_ (ih (a.add (paramMeta p))).2⟩
    · exact Finset.subset_union_left
    · exact Finset.subset_union_left

/-- Each member's declared sets are contained in the combined
declared metadata. -/
theorem paramMeta_subset_declared (ps : List ParamKind) (p : ParamKind) (hp : p ∈ ps) :
    (paramMeta p).resources_read ⊆ (declaredMeta ps).resources_read
      ∧ (paramMeta p).resources_written ⊆ (declaredMeta ps).resources_written := by
  rw [declaredMeta]
  suffices h : ∀ (l : List ParamKind) (a : EventHandlerMeta), p ∈ l →
      (paramMeta p).resources_read
          ⊆ (l.foldl (fun x q => x.add (paramMeta q)) a).resources_read
        ∧ (paramMeta p).resources_written
          ⊆ (l.foldl (fun x q => x.add (paramMeta q)) a).resources_written by
    exact h ps EventHandlerMeta.empty hp
  intro l
  induction l with
  | nil => intro a h; cases h
  | cons q l ih =>
    intro a hmem
    simp only [List.foldl_cons]
    rcases List.mem_cons.mp hmem with rfl | hp'
    · refine ⟨subset_trans ?_ (declaredMetaFold_subset l (a.add (paramMeta p))).1,
        subset_trans ?_ (declaredMetaFold_subset l (a.add (paramMeta p))).2⟩
      · exact Finset.subset_union_right
      · exact Finset.subset_union_right
    · exact ih (a.add (paramMeta q)) hp'

/-- C7 amended: with the stored handler metadata empty (the
registration path never calls the parameter `meta()`), the dispatch
decision is the per-parameter `can_run` conjunction: a handler is
invoked iff every resource type strictly required by a non-optional
`Res`/`ResMut` parameter is present — optional resource parameters
contribute to the declared read/write sets but never cause a skip.
The original claim's second half stands: if every type in the declared
read and write sets is present, the handler is invoked; in all cases
the skip raises no error (it is simply the absence of the
invocation). -/
theorem handler_skipped_iff_strict_requirement_absent
    (ps : List ParamKind) (w : Finset Nat) :
    (handlerInvoked ps w = true
        ↔ ∀ p ∈ ps, ∀ t ∈ strictlyRequires p, t ∈ w)
      ∧ ((((declaredMeta ps).resources_read ∪ (declaredMeta ps).resources_written) ⊆ w)
          → handlerInvoked ps w = true) := by
  have hmeta : metaCanRun functionEventHandlerMeta w = true := by
    simp [metaCanRun, functionEventHandlerMeta, EventHandlerMeta.empty]
  have hpc : ∀ p : ParamKind,
      (paramCanRun w p = true ↔ ∀ t ∈ strictlyRequires p, t ∈ w) := by
    intro p
    cases p <;> simp [paramCanRun, strictlyRequires]
  have hmain : handlerInvoked ps w = true
      ↔ ∀ p ∈ ps, ∀ t ∈ strictlyRequires p, t ∈ w := by
    rw [handlerInvoked, hmeta, Bool.true_and, List.all_eq_true]
    exact ⟨fun h p hp => (hpc p).mp (h p hp), fun h p hp => (hpc p).mpr (h p hp)⟩
  refine ⟨hmain, fun hsub => hmain.mpr ?_⟩
  intro p hp t hto
  have hsets := paramMeta_subset_declared ps p hp
  apply hsub
  cases p with
  | res t' =>
    simp only [strictlyRequires, Option.mem_def, Option.some.injEq] at hto
    subst hto
    exact Finset.mem_union_left _ (hsets.1 (by simp [paramMeta]))
  | resMut t' =>
    simp only [strictlyRequires, Option.mem_def, Option.some.injEq] at hto
    subst hto
    exact Finset.mem_union_right _ (hsets.2 (by simp [paramMeta]))
  | optRes t' => simp [strictlyRequires] at hto
  | optResMut t' => simp [strictlyRequires] at hto
  | localParam => simp [strictlyRequires] at hto
  | worldHandleParam => simp [strictlyRequires] at hto

/-- Witness for the amended C7: a handler with a single `Res<T0>`
parameter runs when resource type 0 is present. -/
theorem handler_skipped_iff_strict_requirement_absent_witness :
    handlerInvoked [ParamKind.res 0] {0} = true :=
  (handler_skipped_iff_strict_requirement_absent [ParamKind.res 0] {0}).1.mpr (by decide)

/-- Looking up the key just inserted yields the new value. -/
theorem alGet_alInsert_self {β : Type} (l : List (Nat × β)) (k : Nat) (v : β) :
    alGet (alInsert l k v) k = some v := by
  induction l with
  | nil => simp [alInsert, alGet]
  | cons kv rest ih =>
    obtain ⟨k', v'⟩ := kv
    by_cases h : k' = k
    · subst h; simp [alInsert, alGet]
    · simp [alInsert, alGet, h, ih]

/-- Inserting one key does not affect lookups of another. -/
theorem alGet_alInsert_ne {β : Type} (l : List (Nat × β)) (k' k : Nat) (v : β)
    (h : k' ≠ k) : alGet (alInsert l k' v) k = alGet l k := by
  induction l with
  | nil => simp [alInsert, alGet, h]
  | cons kv rest ih =>
    obtain ⟨k0, v0⟩ := kv
    by_cases h0 : k0 = k'
    · subst h0; simp [alInsert, alGet, h]
    · by_cases h1 : k0 = k
      · subst h1; simp [alInsert, alGet, h0]
      · simp [alInsert, alGet, h0, h1, ih]

/-- Removing one key does not affect lookups of another. -/
theorem alGet_alRemove_ne {β : Type} (l : List (Nat × β)) (k' k : Nat)
    (h : k' ≠ k) : alGet (alRemove l k') k = alGet l k := by
  induction l with
  | nil => simp [alRemove, alGet]
  | cons kv rest ih =>
    obtain ⟨k0, v0⟩ := kv
    by_cases h0 : k0 = k'
    · subst h0; simp [alRemove, alGet, h]
    · by_cases h1 : k0 = k
      · subst h1; simp [alRemove, alGet, h0]
      · simp [alRemove, alGet, h0, h1, ih]

/-- The key just inserted is among the map's keys. -/
theorem alInsert_mem_keys {β : Type} (l : List (Nat × β)) (k : Nat) (v : β) :
    k ∈ (alInsert l k v).map Prod.fst := by
  induction l with
  | nil => simp [alInsert]
  | cons kv rest ih =>
    obtain ⟨k', v'⟩ := kv
    by_cases h : k' = k <;> simp [alInsert, h, ih]

/-- `get` immediately after `insert` on the same slot returns the
inserted value. -/
theorem get_insert_self (c : Components) (e : Entity) (t : Nat) (v : Val) :
    Components.get (c.insert e t v).2 e t = some v := by
  simp [Components.get, Components.insert, alGet_alInsert_self]

/-- `has` is lookup-success of `get`. -/
theorem has_eq_get_isSome (c : Components) (e : Entity) (t : Nat) :
    Components.has c e t = (Components.get c e t).isSome := by
  rw [Components.has, Components.get]
  cases alGet c.entity_map e <;> rfl

/-- A store operation not addressing the slot `(e, t)` leaves `get e t`
unchanged. -/
theorem get_applyOp_untouched (c : Components) (op : WorldOp) (e : Entity) (t : Nat)
    (h : ¬ touches op e t) :
    Components.get (applyOp c op) e t = Components.get c e t := by
  cases op with
  | ins e' t' v' =>
    simp only [applyOp, Components.insert, Components.get]
    by_cases he : e' = e
    · subst he
      have ht : t' ≠ t := fun hh => h ⟨rfl, hh⟩
      rw [alGet_alInsert_self]
      cases hg : alGet c.entity_map e' with
      | none => simp [hg, alGet_alInsert_ne _ _ _ _ ht, alGet, alInsert, ht]
      | some tm => simp [hg, alGet_alInsert_ne _ _ _ _ ht]
    · rw [alGet_alInsert_ne _ _ _ _ he]
  | rem e' t' =>
    simp only [applyOp]
    rcases hg : alGet c.entity_map e' with _ | tm
    · simp [Components.remove, hg]
    · rcases hgt : alGet tm t' with _ | v
      · simp [Components.remove, hg, hgt]
      · by_cases he : e' = e
        · subst he
          have ht : t' ≠ t := fun hh => h ⟨rfl, hh⟩
          simp only [Components.remove, hg, hgt, Components.get]
          rw [alGet_alInsert_self]
          simp [alGet_alRemove_ne _ _ _ ht]
        · simp only [Components.remove, hg, hgt, Components.get]
          rw [alGet_alInsert_ne _ _ _ _ he]

/-- A sequence of operations none of which addresses `(e, t)` leaves
`get e t` unchanged. -/
theorem get_applyOps_untouched (ops : List WorldOp) (c : Components) (e : Entity)
    (t : Nat) (h : ∀ op ∈ ops, ¬ touches op e t) :
    Components.get (applyOps c ops) e t = Components.get c e t := by
  induction ops generalizing c with
  | nil => rfl
  | cons op ops ih =>
    show Components.get (applyOps (applyOp c op) ops) e t = _
    rw [ih (applyOp c op) (fun o ho => h o (by simp [ho])),
      get_applyOp_untouched c op e t (h op (by simp))]

/-- C9: after `insert(E, v)` and any sequence of further inserts and
removes none of which addresses the slot `(E, T)`, `get::<T>(E)`
returns the inserted value `v`. -/
theorem insert_then_get (c : Components) (e : Entity) (t : Nat) (v : Val)
    (post : List WorldOp) (h : ∀ op ∈ post, ¬ touches op e t) :
    Components.get (applyOps (c.insert e t v).2 post) e t = some v := by
  rw [get_applyOps_untouched post _ e t h, get_insert_self]

/-- Witness for C9: insert value 42 at `(0, 0)`, then insert on a
different entity, then read it back. -/
theorem insert_then_get_witness :
    Components.get
        (applyOps (Components.emptyStore.insert 0 0 42).2 [WorldOp.ins 1 0 7]) 0 0
      = some 42 :=
  insert_then_get Components.emptyStore 0 0 42 [WorldOp.ins 1 0 7] (by decide)

/-- Each query filter step only removes entities. -/
theorem filterStep_subset (c : Components) (matching : List Entity) (k : QKind) :
    ∀ x ∈ filterStep c matching k, x ∈ matching := by
  cases k <;> intro x hx <;> simp only [filterStep] at hx
  · exact hx
  · exact (List.mem_filter.mp hx).1
  · exact (List.mem_filter.mp hx).1

/-- The snapshot of a query is contained in the entity set at
construction time. -/
theorem queryMatching_subset (c : Components) (q : List QKind) :
    ∀ x ∈ queryMatching c q, x ∈ Components.entity_iter c := by
  rw [queryMatching]
  suffices h : ∀ init : List Entity, ∀ x ∈ q.foldl (filterStep c) init, x ∈ init from
    fun x hx => h _ x hx
  induction q with
  | nil => intro init x hx; simpa using hx
  | cons k q ih =>
    intro init x hx
    exact filterStep_subset c init k x (ih (filterStep c init k) x hx)

/-- C8: a query's matching set is fixed eagerly at construction: a
query constructed before entity `e` exists never contains `e` — so
iterating it after inserting component `t` on `e` does not include `e`
— while a query constructed afresh after the insert does contain
`e`. -/
theorem query_snapshot_excludes_new_entity (c : Components) (q : List QKind)
    (e : Entity) (t : Nat) (v : Val) (h : e ∉ Components.entity_iter c) :
    e ∉ queryMatching c q
      ∧ Components.has (c.insert e t v).2 e t = true
      ∧ e ∈ queryMatching (c.insert e t v).2 [QKind.read t] := by
  have hhas : Components.has (c.insert e t v).2 e t = true := by
    rw [has_eq_get_isSome, get_insert_self]; rfl
  refine ⟨fun hmem => h (queryMatching_subset c q e hmem), hhas, ?_⟩
  have h1 : e ∈ Components.entity_iter (c.insert e t v).2 := by
    simp only [Components.entity_iter, Components.insert]
    exact alInsert_mem_keys _ _ _
  simp only [queryMatching, List.foldl_cons, List.foldl_nil, filterStep]
  exact List.mem_filter.mpr ⟨h1, hhas⟩

/-- Witness for C8: entity 0 does not exist in the empty store; after
inserting component 1 on it, the old (empty-store) query misses it and
a fresh query finds it. -/
theorem query_snapshot_excludes_new_entity_witness :
    0 ∉ queryMatching Components.emptyStore [QKind.read 1]
      ∧ 0 ∈ queryMatching (Components.emptyStore.insert 0 1 5).2 [QKind.read 1] :=
  ⟨(query_snapshot_excludes_new_entity Components.emptyStore [QKind.read 1] 0 1 5
      (by decide)).1,
   (query_snapshot_excludes_new_entity Components.emptyStore [QKind.read 1] 0 1 5
      (by decide)).2.2⟩

/-- C10: iterating a component query checks out every snapshot entity
and unwraps.  If every snapshot entity still holds the component the
unwrap never fires and the iteration yields exactly one item per
snapshot entity; if some snapshot entity no longer holds it, the
iteration panics (rather than skipping that entity). -/
theorem query_iter_unwrap (c : Components) (matching : List Entity) (t : Nat) :
    ((∀ e ∈ matching, Components.has c e t = true) →
        ∃ items, queryIterItems c matching t = some items
          ∧ items.length = matching.length)
      ∧ ((∃ e ∈ matching, Components.has c e t = false) →
          queryIterItems c matching t = none) := by
  induction matching with
  | nil =>
    refine ⟨fun _ => ⟨[], rfl, rfl⟩, ?_⟩
    rintro ⟨e, he, -⟩
    cases he
  | cons e rest ih =>
    constructor
    · intro hall
      have hg : (Components.get c e t).isSome = true := by
        rw [← has_eq_get_isSome]; exact hall e (by simp)
      obtain ⟨v, hv⟩ := Option.isSome_iff_exists.mp hg
      obtain ⟨items, hit, hlen⟩ := ih.1 (fun x hx => hall x (by simp [hx]))
      exact ⟨v :: items, by simp [queryIterItems, hv, hit], by simp [hlen]⟩
    · rintro ⟨x, hx, hfalse⟩
      rcases List.mem_cons.mp hx with rfl | hx'
      · have hg : Components.get c x t = none := by
          have h2 := has_eq_get_isSome c x t
          rw [hfalse] at h2
          cases hgg : Components.get c x t
          · rfl
          · rw [hgg] at h2; cases h2
        simp [queryIterItems, hg]
      · have h2 := ih.2 ⟨x, hx', hfalse⟩
        cases hg : Components.get c e t <;> simp [queryIterItems, hg, h2]

/-- Witness for C10 (the panic branch): a snapshot containing entity 0
iterated against the empty store panics. -/
theorem query_iter_unwrap_witness :
    queryIterItems Components.emptyStore [0] 0 = none :=
  (query_iter_unwrap Components.emptyStore [0] 0).2 ⟨0, by decide, by decide⟩

/-- Counting a disjunction of two disjoint predicates splits. -/
theorem countP_or_disjoint {α : Type} (l : List α) (p q r : α → Bool)
    (hpq : ∀ a ∈ l, r a = (p a || q a))
    (hdisj : ∀ a ∈ l, ¬(p a = true ∧ q a = true)) :
    l.countP r = l.countP p + l.countP q := by
  induction l with
  | nil => simp
  | cons a l ih =>
    have hr := hpq a (by simp)
    have hd := hdisj a (by simp)
    rw [List.countP_cons, List.countP_cons, List.countP_cons,
      ih (fun x hx => hpq x (by simp [hx])) (fun x hx => hdisj x (by simp [hx])), hr]
    cases hp : p a <;> cases hq : q a <;> simp [hp, hq] at hd ⊢ <;> omega

/-- Predicate-wise monotonicity of `countP`. -/
theorem countP_le_of_imp {α : Type} (l : List α) (p q : α → Bool)
    (h : ∀ a ∈ l, p a = true → q a = true) :
    l.countP p ≤ l.countP q := by
  induction l with
  | nil => simp
  | cons a l ih =>
    rw [List.countP_cons, List.countP_cons]
    have h2 := ih (fun x hx => h x (by simp [hx]))
    cases hp : p a
    · have e1 : (if false = true then (1 : Nat) else 0) = 0 := rfl
      rw [e1]
      omega
    · rw [h a (by simp) hp]
      have e2 : (if true = true then (1 : Nat) else 0) = 1 := rfl
      rw [e2]
      omega

/-- Two predicates that agree on the list's members count equally. -/
theorem countP_congr_mem {α : Type} (l : List α) (p q : α → Bool)
    (h : ∀ a ∈ l, p a = q a) :
    l.countP p = l.countP q := by
  induction l with
  | nil => rfl
  | cons a l ih =>
    rw [List.countP_cons, List.countP_cons, h a (by simp),
      ih (fun x hx => h x (by simp [hx]))]

/-- The batch loop of the sweep is the decrement fold over the
concatenated out-neighbor lists of the batch nodes. -/
theorem kahnProcessBatch_eq_foldl (edges : List (Nat × Nat))
    (st : (Nat → Nat) × List Nat) (q : List Nat) :
    kahnProcessBatch edges st q
      = (q.flatMap (outNeighbors edges)).foldl kahnDecrement st := by
  induction q generalizing st with
  | nil => rfl
  | cons u q ih =>
    rw [kahnProcessBatch, List.foldl_cons, List.flatMap_cons, List.foldl_append]
    exact ih _

/-- Full characterization of the decrement fold: the in-degree of each
node drops by its multiplicity in the processed edge-target list, and
the enqueued nodes are exactly those whose positive count was consumed
completely — each enqueued once, in addition to the accumulator. -/
theorem kahnDecrement_fold_spec (ws : List Nat) (d0 : Nat → Nat) (nx0 : List Nat)
    (Hcount : ∀ v, ws.count v ≤ d0 v)
    (Hnx0 : ∀ v ∈ nx0, d0 v = 0)
    (Hnodup : nx0.Nodup) :
    (ws.foldl kahnDecrement (d0, nx0)).1 = (fun v => d0 v - ws.count v)
      ∧ (ws.foldl kahnDecrement (d0, nx0)).2.Nodup
      ∧ (∀ v, v ∈ (ws.foldl kahnDecrement (d0, nx0)).2
          ↔ (v ∈ nx0 ∨ (0 < d0 v ∧ d0 v = ws.count v))) := by
  induction ws generalizing d0 nx0 with
  | nil =>
    refine ⟨funext fun v => by simp, Hnodup, fun v => ?_⟩
    constructor
    · exact fun h => Or.inl h
    · rintro (h | ⟨h1, h2⟩)
      · exact h
      · rw [List.count_nil] at h2
        omega
  | cons w rest ih =>
    have hw1 : 1 ≤ d0 w := le_trans (by simp [List.count_cons]) (Hcount w)
    set d1 : Nat → Nat := fun x => if x = w then d0 w - 1 else d0 x with hd1
    set nx1 : List Nat := if d0 w - 1 = 0 then nx0 ++ [w] else nx0 with hnx1
    have hstep : (w :: rest).foldl kahnDecrement (d0, nx0)
        = rest.foldl kahnDecrement (d1, nx1) := by
      rw [List.foldl_cons]
      rfl
    have Hcount' : ∀ v, rest.count v ≤ d1 v := by
      intro v
      have h2 := Hcount v
      by_cases hv : v = w
      · subst hv
        simp only [hd1, if_pos rfl]
        simp [List.count_cons] at h2
        omega
      · have hwv : ¬ w = v := fun h => hv h.symm
        simp only [hd1, if_neg hv]
        simp [List.count_cons, hwv] at h2
        exact h2
    have Hnx0' : ∀ v ∈ nx1, d1 v = 0 := by
      intro v hv
      rw [hnx1] at hv
      by_cases hz : d0 w - 1 = 0
      · rw [if_pos hz] at hv
        rcases List.mem_append.mp hv with h | h
        · have h0 := Hnx0 v h
          have hvw : v ≠ w := fun hh => by rw [hh] at h0; omega
          simp [hd1, hvw, h0]
        · simp only [List.mem_singleton] at h
          subst h
          simp [hd1, hz]
      · rw [if_neg hz] at hv
        have h0 := Hnx0 v hv
        have hvw : v ≠ w := fun hh => by rw [hh] at h0; omega
        simp [hd1, hvw, h0]
    have Hnodup' : nx1.Nodup := by
      rw [hnx1]
      by_cases hz : d0 w - 1 = 0
      · rw [if_pos hz]
        refine List.Nodup.append Hnodup (List.nodup_singleton w) ?_
        intro a ha hb
        simp only [List.mem_singleton] at hb
        subst hb
        have := Hnx0 a ha
        omega
      · rw [if_neg hz]
        exact Hnodup
    obtain ⟨ih1, ih2, ih3⟩ := ih d1 nx1 Hcount' Hnx0' Hnodup'
    rw [hstep]
    refine ⟨?_, ih2, ?_⟩
    · rw [ih1]
      funext v
      by_cases hv : v = w
      · subst hv
        have h2 := Hcount v
        simp only [hd1, if_pos rfl]
        simp [List.count_cons] at h2 ⊢
        omega
      · have hwv : ¬ w = v := fun h => hv h.symm
        simp only [hd1, if_neg hv]
        simp [List.count_cons, hwv]
    · intro v
      rw [ih3 v]
      by_cases hv : v = w
      · subst hv
        have hnotnx0 : v ∉ nx0 := fun h => by have := Hnx0 v h; omega
        have hc1 : 1 ≤ (v :: rest).count v := by simp [List.count_cons]
        have hceq : (v :: rest).count v = rest.count v + 1 := by
          simp [List.count_cons]
        by_cases hz : d0 v - 1 = 0
        · have hd0 : d0 v = 1 := by omega
          have hc : (v :: rest).count v = 1 := by
            have h2 := Hcount v
            omega
          simp only [hnx1, if_pos hz]
          constructor
          · intro _
            exact Or.inr ⟨by omega, by omega⟩
          · intro _
            exact Or.inl (List.mem_append.mpr (Or.inr (List.mem_singleton.mpr rfl)))
        · simp only [hnx1, if_neg hz]
          have h2 := Hcount v
          simp only [hd1, if_pos rfl]
          constructor
          · rintro (h | ⟨h1, h3⟩)
            · exact absurd h hnotnx0
            · exact Or.inr ⟨by omega, by omega⟩
          · rintro (h | ⟨h1, h3⟩)
            · exact absurd h hnotnx0
            · exact Or.inr ⟨by omega, by omega⟩
      · have hwv : ¬ w = v := fun h => hv h.symm
        have hd1v : d1 v = d0 v := by simp [hd1, hv]
        have hcv : rest.count v = (w :: rest).count v := by
          simp [List.count_cons, hwv]
        rw [hd1v, hcv]
        by_cases hz : d0 w - 1 = 0
        · simp only [hnx1, if_pos hz, List.mem_append, List.mem_singleton]
          constructor
          · rintro ((h | h) | h)
            · exact Or.inl h
            · exact absurd h hv
            · exact Or.inr h
          · rintro (h | h)
            · exact Or.inl (Or.inl h)
            · exact Or.inr h
        · simp only [hnx1, if_neg hz]

/-- Counting a constant-false predicate gives zero. -/
theorem countP_false_eq_zero {α : Type} (l : List α) : l.countP (fun _ => false) = 0 := by
  induction l with
  | nil => rfl
  | cons a l ih =>
    rw [List.countP_cons, ih]
    rfl

/-- The multiplicity of `v` among the edge targets processed for a
duplicate-free batch `q` is the number of edges from `q` into `v`. -/
theorem count_flatMap_outNeighbors (edges : List (Nat × Nat)) (q : List Nat)
    (hq : q.Nodup) (v : Nat) :
    (q.flatMap (outNeighbors edges)).count v
      = edges.countP (fun e => decide (e.1 ∈ q) && e.2 == v) := by
  induction q with
  | nil =>
    rw [List.flatMap_nil, List.count_nil]
    rw [countP_congr_mem edges _ (fun _ => false) (by intro e _; simp)]
    exact (countP_false_eq_zero _).symm
  | cons u q ih =>
    have hu : u ∉ q := (List.nodup_cons.mp hq).1
    have ih2 := ih (List.nodup_cons.mp hq).2
    rw [List.flatMap_cons, List.count_append, ih2]
    have h1 : (outNeighbors edges u).count v
        = edges.countP (fun e => e.1 == u && e.2 == v) := by
      rw [outNeighbors, List.count_eq_countP, List.countP_map, List.countP_filter]
      apply countP_congr_mem
      intro e _
      simp only [Function.comp]
      exact Bool.and_comm _ _
    rw [h1]
    rw [countP_or_disjoint edges (fun e => e.1 == u && e.2 == v)
      (fun e => decide (e.1 ∈ q) && e.2 == v)
      (fun e => decide (e.1 ∈ u :: q) && e.2 == v) ?_ ?_]
    · intro e _
      by_cases h2 : e.2 = v
      · by_cases h3 : e.1 = u
        · have h4 : e.1 ∉ q := h3 ▸ hu
          simp [h2, h3, h4, beq_iff_eq]
        · by_cases h5 : e.1 ∈ q <;> simp [h2, h3, h5, beq_iff_eq]
      · have hb : (e.2 == v) = false := beq_eq_false_iff_ne.mpr h2
        simp [hb]
    · rintro e _ ⟨ha, hb⟩
      simp only [Bool.and_eq_true, beq_iff_eq, decide_eq_true_eq] at ha hb
      exact hu (ha.1 ▸ hb.1)

/-- One iteration of the while loop preserves the invariant, the batch
nodes joining the processed set. -/
theorem kahn_step_inv (n : Nat) (edges : List (Nat × Nat))
    (hE : ∀ e ∈ edges, e.1 < n ∧ e.2 < n)
    (P : Finset Nat) (indeg : Nat → Nat) (q : List Nat)
    (inv : KahnInv n edges P indeg q) :
    KahnInv n edges (P ∪ q.toFinset) (kahnProcessBatch edges (indeg, []) q).1
      (kahnProcessBatch edges (indeg, []) q).2 := by
  obtain ⟨hP, hclosed, hq_nodup, hq_mem, hindeg⟩ := inv
  have hqP : ∀ u ∈ q, u ∉ P := fun u hu => ((hq_mem u).mp hu).2.1
  set ws := q.flatMap (outNeighbors edges) with hws
  have hcount_eq : ∀ v, ws.count v
      = edges.countP (fun e => decide (e.1 ∈ q) && e.2 == v) :=
    fun v => count_flatMap_outNeighbors edges q hq_nodup v
  have hcount_P : ∀ v ∈ P, ws.count v = 0 := by
    intro v hv
    rw [hcount_eq]
    rw [countP_congr_mem edges _ (fun _ => false) ?_]
    · exact countP_false_eq_zero _
    · intro e he
      by_cases h1 : e.1 ∈ q
      · by_cases h2 : e.2 = v
        · have h3 : (e.1, v) ∈ edges := by rw [← h2, Prod.mk.eta]; exact he
          exact ((hqP e.1 h1) (hclosed v hv e.1 h3)).elim
        · simp [h2]
      · simp [h1]
  have hsplit : ∀ v, edgeCountFrom edges P v
      = ws.count v + edgeCountFrom edges (P ∪ q.toFinset) v := by
    intro v
    rw [hcount_eq, edgeCountFrom, edgeCountFrom]
    apply countP_or_disjoint
    · intro e _
      by_cases h2 : e.2 = v
      · by_cases h3 : e.1 ∈ P
        · have h4 : e.1 ∉ q := fun hh => hqP e.1 hh h3
          simp [h2, h3, h4, beq_iff_eq]
        · by_cases h1 : e.1 ∈ q <;> simp [h1, h2, h3, beq_iff_eq]
      · have hb : (e.2 == v) = false := beq_eq_false_iff_ne.mpr h2
        simp [hb]
    · rintro e _ ⟨ha, hb⟩
      simp only [Bool.and_eq_true, beq_iff_eq, decide_eq_true_eq,
        Bool.not_eq_eq_eq_not, Bool.not_true, decide_eq_false_iff_not] at ha hb
      exact hb.2 (Finset.mem_union_right _ (List.mem_toFinset.mpr ha.1))
  have Hcount : ∀ v, ws.count v ≤ indeg v := by
    intro v
    by_cases hv : v ∈ P
    · rw [hcount_P v hv]
      exact Nat.zero_le _
    · rw [hindeg v hv, hsplit v]
      omega
  obtain ⟨hf1, hf2, hf3⟩ := kahnDecrement_fold_spec ws indeg []
    Hcount (by intro v hv; cases hv) List.nodup_nil
  rw [kahnProcessBatch_eq_foldl, ← hws]
  refine ⟨?_, ?_, hf2, ?_, ?_⟩
  · intro v hv
    rcases Finset.mem_union.mp hv with h | h
    · exact hP v h
    · exact ((hq_mem v).mp (List.mem_toFinset.mp h)).1
  · intro v hv u hu
    rcases Finset.mem_union.mp hv with h | h
    · exact Finset.mem_union_left _ (hclosed v h u hu)
    · exact Finset.mem_union_left _ (((hq_mem v).mp (List.mem_toFinset.mp h)).2.2 u hu)
  · intro v
    rw [hf3 v]
    simp only [List.not_mem_nil, false_or]
    constructor
    · rintro ⟨hpos, heq⟩
      have hvP : v ∉ P := by
        intro hvP
        rw [hcount_P v hvP] at heq
        omega
      have hvq : v ∉ q := by
        intro hvq
        have hready := (hq_mem v).mp hvq
        have h0 : edgeCountFrom edges P v = 0 := by
          rw [edgeCountFrom]
          rw [countP_congr_mem edges _ (fun _ => false) ?_]
          · exact countP_false_eq_zero _
          · intro e he
            by_cases h2 : e.2 = v
            · have h5 : (e.1, v) ∈ edges := by rw [← h2, Prod.mk.eta]; exact he
              have h6 := hready.2.2 e.1 h5
              simp [h2, h6]
            · simp [h2]
        rw [hindeg v hvP, h0] at hpos
        omega
      refine ⟨?_, ?_, ?_⟩
      · rw [hindeg v hvP, edgeCountFrom] at hpos
        obtain ⟨e, he, hpe⟩ := List.countP_pos_iff.mp hpos
        simp only [Bool.and_eq_true, beq_iff_eq] at hpe
        exact hpe.1 ▸ (hE e he).2
      · intro hmem
        rcases Finset.mem_union.mp hmem with h | h
        · exact hvP h
        · exact hvq (List.mem_toFinset.mp h)
      · have h0 : edgeCountFrom edges (P ∪ q.toFinset) v = 0 := by
          have hs := hsplit v
          rw [hindeg v hvP] at heq
          omega
        intro u hu
        by_contra hun
        have hgt : 0 < edgeCountFrom edges (P ∪ q.toFinset) v := by
          rw [edgeCountFrom]
          apply List.countP_pos_iff.mpr
          exact ⟨(u, v), hu, by simp [hun]⟩
        omega
    · rintro ⟨hvn, hvP', hpreds⟩
      have hvP : v ∉ P := fun h => hvP' (Finset.mem_union_left _ h)
      have hvq : v ∉ q := fun h => hvP' (Finset.mem_union_right _ (List.mem_toFinset.mpr h))
      have h0 : edgeCountFrom edges (P ∪ q.toFinset) v = 0 := by
        rw [edgeCountFrom]
        rw [countP_congr_mem edges _ (fun _ => false) ?_]
        · exact countP_false_eq_zero _
        · intro e he
          by_cases h2 : e.2 = v
          · have h5 : (e.1, v) ∈ edges := by rw [← h2, Prod.mk.eta]; exact he
            have h6 := hpreds e.1 h5
            simp [h2, h6]
          · simp [h2]
      constructor
      · rcases Nat.eq_zero_or_pos (indeg v) with h | h
        · exfalso
          have h1 : edgeCountFrom edges P v = 0 := by rw [← hindeg v hvP]; exact h
          have hready : kahnReady n edges P v := by
            refine ⟨hvn, hvP, ?_⟩
            intro u hu
            by_contra hun
            have hgt : 0 < edgeCountFrom edges P v := by
              rw [edgeCountFrom]
              apply List.countP_pos_iff.mpr
              exact ⟨(u, v), hu, by simp [hun]⟩
            omega
          exact hvq ((hq_mem v).mpr hready)
        · exact h
      · rw [hindeg v hvP]
        have hs := hsplit v
        omega
  · intro v hv'
    have hvP : v ∉ P := fun h => hv' (Finset.mem_union_left _ h)
    have hgoal : indeg v - List.count v ws = edgeCountFrom edges (P ∪ q.toFinset) v := by
      rw [hindeg v hvP]
      have hs := hsplit v
      omega
    rw [hf1]
    exact hgoal

/-- `inDegree` as a `countP`. -/
theorem inDegree_eq_countP (edges : List (Nat × Nat)) (v : Nat) :
    inDegree edges v = edges.countP (fun e => e.2 == v) :=
  (List.countP_eq_length_filter _ _).symm

/-- The state entering the while loop satisfies the invariant: nothing
processed, in-degrees as computed, the zero in-degree nodes queued. -/
theorem kahn_init_inv (n : Nat) (edges : List (Nat × Nat)) :
    KahnInv n edges ∅ (fun v => inDegree edges v)
      ((List.range n).filter (fun v => inDegree edges v == 0)) := by
  have hcong : ∀ v, edgeCountFrom edges ∅ v = inDegree edges v := by
    intro v
    rw [edgeCountFrom, inDegree_eq_countP]
    apply countP_congr_mem
    intro e _
    simp
  refine ⟨?_, ?_, ?_, ?_, ?_⟩
  · intro v hv
    exact absurd hv (Finset.not_mem_empty v)
  · intro v hv
    exact absurd hv (Finset.not_mem_empty v)
  · exact (List.nodup_range n).filter _
  · intro v
    rw [List.mem_filter, List.mem_range]
    constructor
    · rintro ⟨hv, hz⟩
      simp only [beq_iff_eq] at hz
      refine ⟨hv, Finset.not_mem_empty v, ?_⟩
      intro u hu
      exfalso
      have hpos : 0 < inDegree edges v := by
        rw [inDegree_eq_countP]
        exact List.countP_pos_iff.mpr ⟨(u, v), hu, by simp⟩
      omega
    · rintro ⟨hv, -, hpreds⟩
      refine ⟨hv, ?_⟩
      simp only [beq_iff_eq]
      rw [inDegree_eq_countP]
      rw [countP_congr_mem edges _ (fun _ => false) ?_]
      · exact countP_false_eq_zero _
      · intro e he
        by_cases h2 : e.2 = v
        · exfalso
          have h5 : (e.1, v) ∈ edges := by rw [← h2, Prod.mk.eta]; exact he
          exact absurd (hpreds e.1 h5) (Finset.not_mem_empty e.1)
        · have hb : (e.2 == v) = false := beq_eq_false_iff_ne.mpr h2
          simp [hb]
  · intro v _
    exact (hcong v).symm

/-- Unfolding one iteration of the fuelled while loop. -/
theorem kahnLoop_succ (edges : List (Nat × Nat)) (fuel : Nat) (indeg : Nat → Nat)
    (q : List Nat) :
    kahnLoop edges (fuel + 1) indeg q
      = if q.isEmpty then []
        else q :: kahnLoop edges fuel (kahnProcessBatch edges (indeg, []) q).1
            (kahnProcessBatch edges (indeg, []) q).2 := rfl

/-- Membership in the flattened prefix of a batch list. -/
theorem mem_flatten_take (B : List (List Nat)) (j : Nat) (v : Nat) :
    v ∈ (B.take j).flatten
      ↔ ∃ i, i < B.length ∧ i < j ∧ v ∈ B.getD i [] := by
  induction B generalizing j with
  | nil =>
    simp only [List.take_nil, List.flatten_nil, List.not_mem_nil, false_iff]
    rintro ⟨i, hi, -, -⟩
    exact absurd hi (by simp)
  | cons b B ih =>
    cases j with
    | zero =>
      simp only [List.take_zero, List.flatten_nil, List.not_mem_nil, false_iff]
      rintro ⟨i, hi, hij, -⟩
      omega
    | succ j =>
      rw [List.take_succ_cons, List.flatten_cons, List.mem_append, ih]
      constructor
      · rintro (h | ⟨i, hi, hij, hmem⟩)
        · exact ⟨0, by simp, by omega, h⟩
        · exact ⟨i + 1, by simpa using Nat.succ_lt_succ hi, by omega, hmem⟩
      · rintro ⟨i, hi, hij, hmem⟩
        cases i with
        | zero => exact Or.inl hmem
        | succ i =>
          refine Or.inr ⟨i, by simpa using hi, by omega, ?_⟩
          simpa using hmem

/-- Master characterization of the batches the while loop produces:
batch `k` consists exactly of the nodes ready once everything in the
earlier batches (and the previously processed set) is processed. -/
theorem kahnLoop_batches_spec (n : Nat) (edges : List (Nat × Nat))
    (hE : ∀ e ∈ edges, e.1 < n ∧ e.2 < n) :
    ∀ (fuel : Nat) (P : Finset Nat) (indeg : Nat → Nat) (q : List Nat),
      KahnInv n edges P indeg q →
      ∀ (k : Nat), k < (kahnLoop edges fuel indeg q).length →
      ∀ (v : Nat),
        v ∈ (kahnLoop edges fuel indeg q).getD k []
          ↔ kahnReady n edges
              (P ∪ (((kahnLoop edges fuel indeg q).take k).flatten).toFinset) v := by
  intro fuel
  induction fuel with
  | zero =>
    intro P indeg q inv k hk v
    exact absurd hk (by simp [kahnLoop])
  | succ fuel ih =>
    intro P indeg q inv k hk v
    by_cases hq : q.isEmpty
    · rw [kahnLoop_succ, if_pos hq] at hk
      exact absurd hk (by simp)
    · have inv' := kahn_step_inv n edges hE P indeg q inv
      rw [kahnLoop_succ, if_neg hq] at hk ⊢
      cases k with
      | zero =>
        simp only [List.getD_cons_zero, List.take_zero, List.flatten_nil,
          List.toFinset_nil, Finset.union_empty]
        exact inv.hq_mem v
      | succ k =>
        have hk2 : k < (kahnLoop edges fuel (kahnProcessBatch edges (indeg, []) q).1
            (kahnProcessBatch edges (indeg, []) q).2).length := by
          simpa using hk
        have hih := ih (P ∪ q.toFinset) (kahnProcessBatch edges (indeg, []) q).1
          (kahnProcessBatch edges (indeg, []) q).2 inv' k hk2 v
        rw [List.getD_cons_succ, List.take_succ_cons, List.flatten_cons,
          List.toFinset_append, ← Finset.union_assoc]
        exact hih

/-- With an acyclicity witness and enough fuel, every node ends up in
some batch. -/
theorem kahnLoop_complete (n : Nat) (edges : List (Nat × Nat))
    (hE : ∀ e ∈ edges, e.1 < n ∧ e.2 < n)
    (rank : Nat → Nat) (hrank : ∀ e ∈ edges, rank e.1 < rank e.2) :
    ∀ (fuel : Nat) (P : Finset Nat) (indeg : Nat → Nat) (q : List Nat),
      KahnInv n edges P indeg q →
      (Finset.range n \ P).card ≤ fuel →
      ∀ v, v < n → v ∉ P → v ∈ (kahnLoop edges fuel indeg q).flatten := by
  intro fuel
  induction fuel with
  | zero =>
    intro P indeg q inv hfuel v hv hvP
    exfalso
    have hmem : v ∈ Finset.range n \ P :=
      Finset.mem_sdiff.mpr ⟨Finset.mem_range.mpr hv, hvP⟩
    have h2 : 0 < (Finset.range n \ P).card := Finset.card_pos.mpr ⟨v, hmem⟩
    omega
  | succ fuel ih =>
    intro P indeg q inv hfuel v hv hvP
    by_cases hq : q.isEmpty
    · exfalso
      have hne : (Finset.range n \ P).Nonempty :=
        ⟨v, Finset.mem_sdiff.mpr ⟨Finset.mem_range.mpr hv, hvP⟩⟩
      obtain ⟨m, hm, hmin⟩ := Finset.exists_min_image (Finset.range n \ P) rank hne
      have hm2 := Finset.mem_sdiff.mp hm
      have hready : kahnReady n edges P m := by
        refine ⟨Finset.mem_range.mp hm2.1, hm2.2, ?_⟩
        intro u hu
        by_contra hun
        have hu_n : u < n := (hE _ hu).1
        have humem : u ∈ Finset.range n \ P :=
          Finset.mem_sdiff.mpr ⟨Finset.mem_range.mpr hu_n, hun⟩
        have h3 := hmin u humem
        have h4 := hrank _ hu
        simp only at h4
        omega
      have hmq : m ∈ q := (inv.hq_mem m).mpr hready
      cases q with
      | nil => exact (List.not_mem_nil m) hmq
      | cons a q2 => simp [List.isEmpty] at hq
    · rw [kahnLoop_succ, if_neg hq, List.flatten_cons]
      by_cases hvq : v ∈ q
      · exact List.mem_append.mpr (Or.inl hvq)
      · have inv' := kahn_step_inv n edges hE P indeg q inv
        have hvP' : v ∉ P ∪ q.toFinset := by
          intro h
          rcases Finset.mem_union.mp h with h | h
          · exact hvP h
          · exact hvq (List.mem_toFinset.mp h)
        obtain ⟨u, hu⟩ : ∃ u, u ∈ q := by
          cases q with
          | nil => simp [List.isEmpty] at hq
          | cons a q2 => exact ⟨a, by simp⟩
        have hfuel' : (Finset.range n \ (P ∪ q.toFinset)).card ≤ fuel := by
          have hsubset : Finset.range n \ (P ∪ q.toFinset) ⊆ Finset.range n \ P := by
            intro x hx
            have h2 := Finset.mem_sdiff.mp hx
            exact Finset.mem_sdiff.mpr
              ⟨h2.1, fun hxp => h2.2 (Finset.mem_union_left _ hxp)⟩
          have hu_ready := (inv.hq_mem u).mp hu
          have humem : u ∈ Finset.range n \ P :=
            Finset.mem_sdiff.mpr ⟨Finset.mem_range.mpr hu_ready.1, hu_ready.2.1⟩
          have hu_notin : u ∉ Finset.range n \ (P ∪ q.toFinset) := by
            intro h
            exact (Finset.mem_sdiff.mp h).2
              (Finset.mem_union_right _ (List.mem_toFinset.mpr hu))
          have hss := (Finset.ssubset_iff_of_subset hsubset).mpr ⟨u, humem, hu_notin⟩
          have := Finset.card_lt_card hss
          omega
        exact List.mem_append.mpr
          (Or.inr (ih (P ∪ q.toFinset) _ _ inv' hfuel' v hv hvP'))

/-- C2: for a firing whose handler graph (nodes `0..n-1`, given edge
list) is acyclic — witnessed by a rank function increasing along every
edge — the Kahn sweep of `fire` spawns handlers in batches such that
(1) every handler appears in some batch, (2) in exactly one batch,
(3) for every ordering edge `g → h` the batch of `g` comes strictly
before the batch of `h`, and (4) a handler's batch is the earliest
possible: all its predecessors sit in strictly earlier batches, and —
for every batch after the first — some predecessor sits in the
immediately preceding batch (its in-degree reached zero exactly then).
Handlers with no ordering relationship and the same earliest-readiness
hence share a batch. -/
theorem fire_dispatch_topological (n : Nat) (edges : List (Nat × Nat))
    (hE : ∀ e ∈ edges, e.1 < n ∧ e.2 < n)
    (rank : Nat → Nat) (hrank : ∀ e ∈ edges, rank e.1 < rank e.2) :
    (∀ v, v < n → ∃ k, k < (kahnBatches n edges).length
        ∧ v ∈ (kahnBatches n edges).getD k [])
      ∧ (∀ k1 k2 v, k1 < (kahnBatches n edges).length →
          k2 < (kahnBatches n edges).length →
          v ∈ (kahnBatches n edges).getD k1 [] →
          v ∈ (kahnBatches n edges).getD k2 [] → k1 = k2)
      ∧ (∀ u v, (u, v) ∈ edges → ∀ k1 k2,
          k1 < (kahnBatches n edges).length →
          k2 < (kahnBatches n edges).length →
          u ∈ (kahnBatches n edges).getD k1 [] →
          v ∈ (kahnBatches n edges).getD k2 [] → k1 < k2)
      ∧ (∀ k v, k < (kahnBatches n edges).length →
          v ∈ (kahnBatches n edges).getD k [] →
          (∀ u, (u, v) ∈ edges → ∃ j, j < k ∧ u ∈ (kahnBatches n edges).getD j [])
            ∧ (0 < k → ∃ u, (u, v) ∈ edges
                ∧ u ∈ (kahnBatches n edges).getD (k - 1) [])) := by
  set B := kahnBatches n edges with hB
  have hBdef : B = kahnLoop edges n (fun v => inDegree edges v)
      ((List.range n).filter (fun v => inDegree edges v == 0)) := rfl
  have hinit := kahn_init_inv n edges
  have master0 := kahnLoop_batches_spec n edges hE n ∅ (fun v => inDegree edges v)
    ((List.range n).filter (fun v => inDegree edges v == 0)) hinit
  rw [← hBdef] at master0
  have master : ∀ k, k < B.length → ∀ v,
      v ∈ B.getD k [] ↔ kahnReady n edges ((B.take k).flatten.toFinset) v := by
    intro k hk v
    have h1 := master0 k hk v
    rwa [Finset.empty_union] at h1
  have hcov : ∀ v, v < n → ∃ k, k < B.length ∧ v ∈ B.getD k [] := by
    intro v hv
    have hcard : (Finset.range n \ ∅).card ≤ n := by
      rw [Finset.sdiff_empty, Finset.card_range]
    have h1 := kahnLoop_complete n edges hE rank hrank n ∅
      (fun v => inDegree edges v)
      ((List.range n).filter (fun v => inDegree edges v == 0)) hinit hcard v hv
      (Finset.not_mem_empty v)
    rw [← hBdef] at h1
    have h2 : v ∈ (B.take B.length).flatten := by rwa [List.take_length]
    obtain ⟨i, hi, -, hmem⟩ := (mem_flatten_take B B.length v).mp h2
    exact ⟨i, hi, hmem⟩
  have huniq : ∀ k1 k2 v, k1 < B.length → k2 < B.length →
      v ∈ B.getD k1 [] → v ∈ B.getD k2 [] → k1 = k2 := by
    intro k1 k2 v hk1 hk2 h1 h2
    by_contra hne
    rcases Nat.lt_or_ge k1 k2 with hlt | hge
    · have hready := (master k2 hk2 v).mp h2
      exact hready.2.1
        (List.mem_toFinset.mpr ((mem_flatten_take B k2 v).mpr ⟨k1, hk1, hlt, h1⟩))
    · have hlt : k2 < k1 := by omega
      have hready := (master k1 hk1 v).mp h1
      exact hready.2.1
        (List.mem_toFinset.mpr ((mem_flatten_take B k1 v).mpr ⟨k2, hk2, hlt, h2⟩))
  have hmono : ∀ u v, (u, v) ∈ edges → ∀ k1 k2, k1 < B.length → k2 < B.length →
      u ∈ B.getD k1 [] → v ∈ B.getD k2 [] → k1 < k2 := by
    intro u v he k1 k2 hk1 hk2 hu hv2
    have hready := (master k2 hk2 v).mp hv2
    have humem := hready.2.2 u he
    obtain ⟨i, hi, hik, hmem⟩ := (mem_flatten_take B k2 u).mp (List.mem_toFinset.mp humem)
    have := huniq i k1 u hi hk1 hmem hu
    omega
  refine ⟨hcov, huniq, hmono, ?_⟩
  intro k v hk hv2
  have hready := (master k hk v).mp hv2
  constructor
  · intro u he
    have humem := hready.2.2 u he
    obtain ⟨i, hi, hik, hmem⟩ := (mem_flatten_take B k u).mp (List.mem_toFinset.mp humem)
    exact ⟨i, hik, hmem⟩
  · intro hkpos
    by_contra hno
    push_neg at hno
    have hk1 : k - 1 < B.length := by omega
    have hready' : kahnReady n edges ((B.take (k - 1)).flatten.toFinset) v := by
      refine ⟨hready.1, ?_, ?_⟩
      · intro hvmem
        obtain ⟨i, hi, hik, hmem⟩ :=
          (mem_flatten_take B (k - 1) v).mp (List.mem_toFinset.mp hvmem)
        have := huniq i k v hi hk hmem hv2
        omega
      · intro u he
        have humem := hready.2.2 u he
        obtain ⟨i, hi, hik, hmem⟩ :=
          (mem_flatten_take B k u).mp (List.mem_toFinset.mp humem)
        have hine : i ≠ k - 1 := by
          intro hik1
          exact hno u he (hik1 ▸ hmem)
        exact List.mem_toFinset.mpr
          ((mem_flatten_take B (k - 1) u).mpr ⟨i, hi, by omega, hmem⟩)
    have hvk1 := (master (k - 1) hk1 v).mpr hready'
    have := huniq (k - 1) k v hk1 hk hvk1 hv2
    omega

/-- Witness for C2 at the spec's own test graph: handlers A = 0, B = 1,
C = 2 with the single edge A → B; rank by node index certifies
acyclicity, and handler B is spawned in some batch. -/
theorem fire_dispatch_topological_witness :
    ∃ k, k < (kahnBatches 3 [(0, 1)]).length
      ∧ 1 ∈ (kahnBatches 3 [(0, 1)]).getD k [] :=
  (fire_dispatch_topological 3 [(0, 1)] (by decide) (fun v => v) (by decide)).1 1
    (by decide)

end Kyrene
